import Mathlib

/-!
Verification development for `founder_finder.py`: a shallow embedding of the
extraction engine (name validation, cue-pattern regex matching, DOM container
scoping), the URL utilities, the input-line parser, and the crawl driver's
control flow, together with theorems settling the specification claims.

Python strings are modelled as Lean `String`s over their character lists;
only ASCII case folding and the ASCII whitespace set are modelled, matching
the inputs the claims are about.  Python `set`s are modelled as duplicate-free
`List`s built by guarded insertion (`setAdd`), so membership coincides with
Python set membership and iteration order is insertion order.
-/

/-- The apostrophe character, written via its code point. -/
def apos : Char := Char.ofNat 39

/-- ASCII whitespace, as in Python's `str.split`/`str.strip` (Unicode
whitespace beyond ASCII is not modelled). -/
def pyIsSpace (c : Char) : Bool :=
  c = ' ' || c = '\t' || c = '\n' || c = '\r' || c = '\x0b' || c = '\x0c'

/-- Python `str.strip()`. -/
def pyStrip (s : String) : String :=
  String.mk (((s.data.dropWhile pyIsSpace).reverse.dropWhile pyIsSpace).reverse)

/-- Worker for Python `str.split()` (split on whitespace runs, no empties). -/
def splitWsAux : List Char → List Char → List String
  | [], acc => if acc.isEmpty then [] else [String.mk acc.reverse]
  | c :: cs, acc =>
    if pyIsSpace c then
      (if acc.isEmpty then [] else [String.mk acc.reverse]) ++ splitWsAux cs []
    else splitWsAux cs (c :: acc)

/-- Python `str.split()` with no arguments. -/
def pySplit (s : String) : List String := splitWsAux s.data []

/-- Embeds `" ".join(s.split())`: whitespace collapsing used throughout the source. -/
def collapseWs (s : String) : String := String.intercalate " " (pySplit s)

/-- Embeds `[p for p in text.strip().split() if p]` from `is_plausible_person_name`. -/
def pyTokens (text : String) : List String :=
  (pySplit (pyStrip text)).filter (fun p => p ≠ "")

/-- Embeds `[A-Z]` (ASCII). -/
def isUpperAZ (c : Char) : Bool := 'A' ≤ c && c ≤ 'Z'

/-- Embeds `[a-z]` (ASCII). -/
def isLowerAZ (c : Char) : Bool := 'a' ≤ c && c ≤ 'z'

/-- Embeds `[A-Za-z]` (ASCII). -/
def isLetterAZ (c : Char) : Bool := isUpperAZ c || isLowerAZ c

/-- Embeds `[A-Za-z]*$` after the first suffix letter of `NAME_TOKEN_RE`. -/
def lettersEnd : List Char → Bool
  | [] => true
  | c :: rest => isLetterAZ c && lettersEnd rest

/-- Embeds `[A-Za-z]+$`: the part of `NAME_TOKEN_RE` after `[-']`. -/
def suffixLetters : List Char → Bool
  | [] => false
  | c :: rest => isLetterAZ c && lettersEnd rest

/-- Rest of `NAME_TOKEN_RE` after `[A-Z][a-z]`: more `[a-z]`, then an optional
`[-'][A-Za-z]+`, then the end of the token.  The character classes `[a-z]`,
`[-']` and the end are mutually exclusive, so the regex is deterministic and
this direct recursion is its exact matcher. -/
def tokenTail : List Char → Bool
  | [] => true
  | c :: rest =>
    if isLowerAZ c then tokenTail rest
    else if c = '-' || c = apos then suffixLetters rest
    else false

/-- Embeds `NAME_TOKEN_RE.match(p)` for `NAME_TOKEN_RE = ^[A-Z][a-z]+(?:[-'][A-Za-z]+)?$`.
(`$` also matches before a trailing newline in Python, but the tokens this is
applied to come from whitespace splitting and never contain a newline.) -/
def NAME_TOKEN_RE (p : String) : Bool :=
  match p.data with
  | c0 :: c1 :: rest => isUpperAZ c0 && isLowerAZ c1 && tokenTail rest
  | _ => false

/-- Embeds `NON_NAME_TOKENS` from the source (a Python set; the source lists
`"Co-Founder"` twice, which is the same set element). -/
def NON_NAME_TOKENS : List String :=
  ["Chief", "Executive", "Officer", "CEO", "COO", "CTO", "CFO", "Founder",
   "Co-Founder", "CoFounder",
   "Managing", "Partner", "Director", "Senior", "Former", "Press", "News", "Team",
   "About", "Our", "The", "Board", "Early", "Stage", "Read", "More", "Join", "Us", "If",
   "Use", "Code", "Mission", "Company", "Science", "Engineer", "Data", "Head", "VP",
   "Vice", "President", "Investor", "Advisor", "Lead", "Principal", "Growth", "Marketing"]

/-- Embeds `is_plausible_person_name` from the source: 2–4 whitespace tokens, none in
the stoplist, each matching `NAME_TOKEN_RE`. -/
def is_plausible_person_name (text : String) : Bool :=
  let parts := pyTokens text
  if parts.length < 2 ∨ 4 < parts.length then false
  else parts.all (fun p => !(decide (p ∈ NON_NAME_TOKENS)) && NAME_TOKEN_RE p)

/-- Claim C5: for every input string whose whitespace-split non-empty token
count is less than 2 or greater than 4, `is_plausible_person_name` returns
false. -/
theorem C5_token_count_outside_range_rejected (text : String)
    (h : (pyTokens text).length < 2 ∨ 4 < (pyTokens text).length) :
    is_plausible_person_name text = false := by
  unfold is_plausible_person_name
  simp only [if_pos h]

/-- Witness for C5 at the concrete one-token input `"Alice"`. -/
theorem C5_witness :
    ((pyTokens "Alice").length < 2 ∨ 4 < (pyTokens "Alice").length) ∧
      is_plausible_person_name "Alice" = false :=
  ⟨by decide, C5_token_count_outside_range_rejected "Alice" (by decide)⟩

/-- Claim C4, counterexample: `"O'Brien Smith-Jones"` is a 2-token candidate
whose tokens are apostrophe-joined resp. hyphen-joined capitalized words not
in the stoplist, yet the validator rejects it: `NAME_TOKEN_RE` requires at
least one lowercase letter before the joiner, which `"O'Brien"` lacks. -/
theorem C4_counterexample :
    is_plausible_person_name (String.mk
      ['O', apos, 'B', 'r', 'i', 'e', 'n', ' ',
       'S', 'm', 'i', 't', 'h', '-', 'J', 'o', 'n', 'e', 's']) = false := by
  decide

theorem lettersEnd_of_all (l : List Char) (h : ∀ c ∈ l, isLetterAZ c = true) :
    lettersEnd l = true := by
  induction l with
  | nil => rfl
  | cons c rest ih =>
    simp only [lettersEnd, Bool.and_eq_true]
    exact ⟨h c (List.mem_cons_self c rest), ih (fun d hd => h d (List.mem_cons_of_mem c hd))⟩

theorem tokenTail_of_shape (ls suf : List Char)
    (hls : ∀ c ∈ ls, isLowerAZ c = true)
    (hsuf : suf = [] ∨ ∃ j tl, suf = j :: tl ∧ (j = '-' ∨ j = apos) ∧ tl ≠ [] ∧
      ∀ c ∈ tl, isLetterAZ c = true) :
    tokenTail (ls ++ suf) = true := by
  induction ls with
  | nil =>
    rcases hsuf with h | ⟨j, tl, hj, hjc, htlne, htl⟩
    · subst h; rfl
    · subst hj
      simp only [List.nil_append, tokenTail]
      have hjl : isLowerAZ j = false := by
        rcases hjc with h | h <;> subst h <;> decide
      rw [hjl]
      simp only [if_false, Bool.false_eq_true]
      have : (j = '-' || j = apos) = true := by
        rcases hjc with h | h <;> subst h <;> decide
      rw [this]
      simp only [if_true]
      cases tl with
      | nil => exact absurd rfl htlne
      | cons d tl2 =>
        simp only [suffixLetters, Bool.and_eq_true]
        exact ⟨htl d (List.mem_cons_self d tl2),
          lettersEnd_of_all tl2 (fun e he => htl e (List.mem_cons_of_mem d he))⟩
  | cons c rest ih =>
    simp only [List.cons_append, tokenTail]
    rw [hls c (List.mem_cons_self c rest)]
    simp only [if_true]
    exact ih (fun d hd => hls d (List.mem_cons_of_mem c hd))

/-- Claim C4, amended: the validator accepts every token of the shape actually
implemented by `NAME_TOKEN_RE` — one uppercase letter, one or more lowercase
letters, then an optional hyphen- or apostrophe-joined letter suffix — and for
any 2–4-token candidate all of whose tokens have this shape and avoid the
stoplist, `is_plausible_person_name` returns true.  `"Smith-Jones"`-style
tokens have the shape; `"O'Brien"`-style tokens (apostrophe directly after the
initial capital) do not, and candidates containing them are rejected. -/
theorem C4_amended_shaped_tokens_accepted (text : String)
    (hlo : 2 ≤ (pyTokens text).length) (hhi : (pyTokens text).length ≤ 4)
    (hshape : ∀ p ∈ pyTokens text, p ∉ NON_NAME_TOKENS ∧
      ∃ (u c1 : Char) (ls suf : List Char),
        p.data = u :: c1 :: (ls ++ suf) ∧ isUpperAZ u = true ∧ isLowerAZ c1 = true ∧
        (∀ c ∈ ls, isLowerAZ c = true) ∧
        (suf = [] ∨ ∃ j tl, suf = j :: tl ∧ (j = '-' ∨ j = apos) ∧ tl ≠ [] ∧
          ∀ c ∈ tl, isLetterAZ c = true)) :
    is_plausible_person_name text = true := by
  unfold is_plausible_person_name
  have hcond : ¬((pyTokens text).length < 2 ∨ 4 < (pyTokens text).length) := by
    push_neg
    exact ⟨hlo, hhi⟩
  simp only [if_neg hcond]
  rw [List.all_eq_true]
  intro p hp
  obtain ⟨hmem, u, c1, ls, suf, hdata, hu, hc1, hls, hsuf⟩ := hshape p hp
  have hre : NAME_TOKEN_RE p = true := by
    unfold NAME_TOKEN_RE
    rw [hdata]
    simp only [hu, hc1, Bool.true_and]
    exact tokenTail_of_shape ls suf hls hsuf
  simp [hmem, hre]

/-- Witness for the amended C4 at the concrete input `"Mary Smith-Jones"`. -/
theorem C4_amended_witness : is_plausible_person_name "Mary Smith-Jones" = true := by
  refine C4_amended_shaped_tokens_accepted "Mary Smith-Jones" (by decide) (by decide) ?_
  intro p hp
  have htok : pyTokens "Mary Smith-Jones" = ["Mary", "Smith-Jones"] := by decide
  rw [htok] at hp
  rcases List.mem_cons.mp hp with h | hp2
  · subst h
    refine ⟨by decide, 'M', 'a', ['r', 'y'], [], by decide, by decide, by decide,
      by decide, Or.inl rfl⟩
  · rcases List.mem_cons.mp hp2 with h | h
    · subst h
      refine ⟨by decide, 'S', 'm', ['i', 't', 'h'], '-' :: ['J', 'o', 'n', 'e', 's'],
        by decide, by decide, by decide, by decide, ?_⟩
      exact Or.inr ⟨'-', ['J', 'o', 'n', 'e', 's'], rfl, Or.inl rfl, by decide, by decide⟩
    · exact absurd h (List.not_mem_nil p)

/-- ASCII lowercasing, for `re.IGNORECASE` and `scheme.lower()`. -/
def toLowerAscii (c : Char) : Char :=
  if 'A' ≤ c && c ≤ 'Z' then Char.ofNat (c.toNat + 32) else c

/-- Embeds `\w` for `\b` word boundaries (ASCII; inputs under study are ASCII). -/
def isWordChar (c : Char) : Bool := c.isAlpha || c.isDigit || c = '_'

/-- Regex abstract syntax for the source's patterns.  `rep lo hi greedy a`
is `a{lo,hi}` (`hi = none` for unbounded); `grp i a` is capture group `i`;
`liti` is a case-insensitive literal (stored lowercase); `wb` is `\b`. -/
inductive RE where
  | eps : RE
  | cls : (Char → Bool) → RE
  | lit : List Char → RE
  | liti : List Char → RE
  | seq : RE → RE → RE
  | alt : RE → RE → RE
  | rep : Nat → Option Nat → Bool → RE → RE
  | grp : Nat → RE → RE
  | wb : RE

/-- Match a literal character-by-character under an equality predicate,
returning the new previous character and the remaining input. -/
def litMatch (eq : Char → Char → Bool) :
    List Char → Option Char → List Char → Option (Option Char × List Char)
  | [], prev, s => some (prev, s)
  | _ :: _, _, [] => none
  | c :: l, _, d :: s => if eq c d then litMatch eq l (some d) s else none

/-- Record capture group `i` (latest assignment wins, as in Python). -/
def setCap (caps : List (Nat × List Char)) (i : Nat) (v : List Char) :
    List (Nat × List Char) :=
  (i, v) :: caps.filter (fun p => p.1 ≠ i)

/-- Look up capture group `i`. -/
def getCap (caps : List (Nat × List Char)) (i : Nat) : List Char :=
  match caps.find? (fun p => p.1 = i) with
  | some p => p.2
  | none => []

/-- Embeds `\b` holds between `prev` and the head of `s` iff exactly one side is a
word character (string edges count as non-word). -/
def atBoundary (prev : Option Char) (s : List Char) : Bool :=
  let a := match prev with | some c => isWordChar c | none => false
  let b := match s with | c :: _ => isWordChar c | [] => false
  a != b

/-- Backtracking matcher in continuation-passing style, replicating Python
`re` semantics: leftmost alternation bias and greedy/lazy quantifiers that
backtrack only on failure of the continuation.  `fuel` bounds recursion depth
for totality only; it is chosen large enough for all concrete evaluations. -/
def reMatch : Nat → RE → Option Char → List Char → List (Nat × List Char) →
    (Option Char → List Char → List (Nat × List Char) →
      Option (List Char × List (Nat × List Char))) →
    Option (List Char × List (Nat × List Char))
  | 0, _, _, _, _, _ => none
  | fuel + 1, e, prev, s, caps, k =>
    match e with
    | .eps => k prev s caps
    | .cls f =>
      match s with
      | [] => none
      | c :: rest => if f c then k (some c) rest caps else none
    | .lit l =>
      match litMatch (fun a b => a = b) l prev s with
      | some (p2, s2) => k p2 s2 caps
      | none => none
    | .liti l =>
      match litMatch (fun a b => a = toLowerAscii b) l prev s with
      | some (p2, s2) => k p2 s2 caps
      | none => none
    | .seq a b => reMatch fuel a prev s caps (fun p2 s2 c2 => reMatch fuel b p2 s2 c2 k)
    | .alt a b =>
      match reMatch fuel a prev s caps k with
      | some r => some r
      | none => reMatch fuel b prev s caps k
    | .rep lo hi greedy a =>
      match lo with
      | lo1 + 1 =>
        reMatch fuel a prev s caps (fun p2 s2 c2 =>
          reMatch fuel (.rep lo1 (hi.map (fun n => n - 1)) greedy a) p2 s2 c2 k)
      | 0 =>
        match hi with
        | some 0 => k prev s caps
        | _ =>
          if greedy then
            match reMatch fuel a prev s caps (fun p2 s2 c2 =>
                reMatch fuel (.rep 0 (hi.map (fun n => n - 1)) greedy a) p2 s2 c2 k) with
            | some r => some r
            | none => k prev s caps
          else
            match k prev s caps with
            | some r => some r
            | none => reMatch fuel a prev s caps (fun p2 s2 c2 =>
                reMatch fuel (.rep 0 (hi.map (fun n => n - 1)) greedy a) p2 s2 c2 k)
    | .grp i a =>
      reMatch fuel a prev s caps (fun p2 s2 c2 =>
        k p2 s2 (setCap c2 i (s.take (s.length - s2.length))))
    | .wb => if atBoundary prev s then k prev s caps else none

/-- Recursion-depth bound for the matcher; ample for every string evaluated
in this development. -/
def FUEL : Nat := 100000

/-- Attempt a match anchored at the current position; on success return the
remaining input and the captures. -/
def reMatchTop (e : RE) (prev : Option Char) (s : List Char) :
    Option (List Char × List (Nat × List Char)) :=
  reMatch FUEL e prev s [] (fun _ s2 c2 => some (s2, c2))

/-- The character just before the new scan position. -/
def lastBefore (prev : Option Char) (consumed : List Char) : Option Char :=
  match consumed.getLast? with
  | some c => some c
  | none => prev

/-- Embeds `finditer`: scan left to right, collecting captures of each
non-overlapping match and resuming after its end. -/
def scanAux (e : RE) : Nat → Option Char → List Char → List (List (Nat × List Char))
  | 0, _, _ => []
  | f + 1, prev, s =>
    match reMatchTop e prev s with
    | some (r, caps) =>
      if r.length < s.length then
        caps :: scanAux e f (lastBefore prev (s.take (s.length - r.length))) r
      else
        match s with
        | [] => [caps]
        | c :: rest => caps :: scanAux e f (some c) rest
    | none =>
      match s with
      | [] => []
      | c :: rest => scanAux e f (some c) rest

/-- All matches of `e` in `s`, as capture lists. -/
def reFindIter (e : RE) (s : List Char) : List (List (Nat × List Char)) :=
  scanAux e (s.length + 1) none s

/-- Embeds `re.search` as a Boolean. -/
def reSearchAux (e : RE) : Nat → Option Char → List Char → Bool
  | 0, _, _ => false
  | f + 1, prev, s =>
    if (reMatchTop e prev s).isSome then true
    else
      match s with
      | [] => false
      | c :: rest => reSearchAux e f (some c) rest

/-- Does `e` match anywhere in `s`? -/
def reSearch (e : RE) (s : List Char) : Bool := reSearchAux e (s.length + 1) none s

/-- Embeds `re.split`: the pieces of `s` between non-overlapping matches of `e`. -/
def splitAux (e : RE) : Nat → Option Char → List Char → List Char → List String
  | 0, _, acc, s => [String.mk (acc.reverse ++ s)]
  | f + 1, prev, acc, s =>
    match reMatchTop e prev s with
    | some (r, _) =>
      if r.length < s.length then
        String.mk acc.reverse ::
          splitAux e f (lastBefore prev (s.take (s.length - r.length))) [] r
      else
        match s with
        | [] => [String.mk acc.reverse]
        | c :: rest => splitAux e f (some c) (c :: acc) rest
    | none =>
      match s with
      | [] => [String.mk acc.reverse]
      | c :: rest => splitAux e f (some c) (c :: acc) rest

/-- Python `re.split(e, s)`. -/
def splitByRe (e : RE) (s : List Char) : List String := splitAux e (s.length + 1) none [] s

/-- Right-nested sequencing of a pattern list. -/
def seqs (l : List RE) : RE := l.foldr RE.seq RE.eps

/-- Embeds `\s*`. -/
def ws0 : RE := RE.rep 0 none true (RE.cls pyIsSpace)

/-- Embeds `\s+`. -/
def ws1 : RE := RE.rep 1 none true (RE.cls pyIsSpace)

/-- Embeds `[A-Z]` and `[a-z]` under `re.IGNORECASE` both match any ASCII letter. -/
def alphaCls : RE := RE.cls isLetterAZ

/-- Embeds `[A-Z][a-z]+` under `(?i)`: two or more letters. -/
def wordI : RE := RE.seq alphaCls (RE.rep 1 none true alphaCls)

/-- Embeds `[A-Z][a-z]+(?:\s+[A-Z][a-z]+){1,3}` under `(?i)`. -/
def nameSpanI : RE := RE.seq wordI (RE.rep 1 (some 3) true (RE.seq ws1 wordI))

/-- Embeds `(?:,|and|&)` under `(?i)`. -/
def sepTokI : RE := RE.alt (RE.lit [',']) (RE.alt (RE.liti ['a', 'n', 'd']) (RE.lit ['&']))

/-- Embeds `FOUNDED_BY_SENT` from the source (flags `(?is)`; it contains no `.`,
so only the case-insensitivity matters). -/
def FOUNDED_BY_SENT : RE :=
  seqs [RE.wb, RE.liti "founded by".data, RE.wb, ws0,
    RE.grp 1 (RE.seq nameSpanI
      (RE.rep 0 none true (seqs [ws0, sepTokI, ws0, nameSpanI])))]

/-- Embeds `[-\s–]` in the `co[-\s–]?founder` variants. -/
def cueDash (c : Char) : Bool := c = '-' || pyIsSpace c || c = '–'

/-- Embeds `co[-\s–]?founder` under `(?i)`. -/
def cueCo : RE :=
  seqs [RE.liti ['c', 'o'], RE.rep 0 (some 1) true (RE.cls cueDash),
    RE.liti "founder".data]

/-- Embeds `(co[-\s–]?founder|founder)` under `(?i)`. -/
def cueWordI : RE := RE.alt cueCo (RE.liti "founder".data)

/-- Embeds `[,–—\-()]`. -/
def punctCls (c : Char) : Bool :=
  c = ',' || c = '–' || c = '—' || c = '-' || c = '(' || c = ')'

/-- Embeds `\s*[,–—\-()]*\s*`: the glue between name span and cue word. -/
def midGlue : RE := seqs [ws0, RE.rep 0 none true (RE.cls punctCls), ws0]

/-- Embeds `FOUNDER_NAME_RIGHT` from the source (flag `re.I`). -/
def FOUNDER_NAME_RIGHT : RE :=
  seqs [RE.wb, RE.grp 1 nameSpanI, RE.wb, midGlue, RE.wb, RE.grp 2 cueWordI, RE.wb]

/-- Embeds `FOUNDER_NAME_LEFT` from the source (flag `re.I`). -/
def FOUNDER_NAME_LEFT : RE :=
  seqs [RE.wb, RE.grp 1 cueWordI, RE.wb, midGlue, RE.wb, RE.grp 2 nameSpanI, RE.wb]

/-- Embeds `FOUNDER_CUE` from the source (flag `(?i)`). -/
def FOUNDER_CUE : RE :=
  seqs [RE.wb,
    RE.grp 1 (RE.alt cueCo (RE.alt (RE.liti "founder".data) (RE.liti "founded by".data))),
    RE.wb]

/-- The split pattern `\s*(?:,|and|&)\s*` of `extract_from_founded_by`
(case-sensitive: no flag on this one). -/
def SEP_SPLIT : RE :=
  seqs [ws0, RE.alt (RE.lit [',']) (RE.alt (RE.lit "and".data) (RE.lit ['&'])), ws0]

/-- Guarded insertion: Python `set.add` on the insertion-ordered list model. -/
def setAdd (s : List String) (x : String) : List String :=
  if x ∈ s then s else s ++ [x]

/-- Group 1 of each `FOUNDED_BY_SENT` match (the `blob`s of
`extract_from_founded_by`). -/
def foundedByBlobs (text : String) : List String :=
  (reFindIter FOUNDED_BY_SENT text.data).map (fun caps => String.mk (getCap caps 1))

/-- Embeds `extract_from_founded_by` from the source: split each blob on the
separator pattern, strip, validate, and collect into the set. -/
def extract_from_founded_by (text : String) : List String :=
  (foundedByBlobs text).foldl (fun out blob =>
    (splitByRe SEP_SPLIT blob.data).foldl (fun out2 p =>
      let cand := pyStrip p
      if is_plausible_person_name cand then setAdd out2 cand else out2) out) []

/-- Claim C1: on `"Founded by Jane Doe and John Smith"` the `founded by`
sentence pattern does not return the claimed `{"Jane Doe", "John Smith"}`:
under `(?i)` the word `and` itself matches `[A-Z][a-z]+`, so the greedy
`{1,3}` swallows `and John` into the first name group; the captured blob is
`"Jane Doe and John"`, its split pieces are `"Jane Doe"` and `"John"`, and
`"John"` fails validation, leaving exactly `{"Jane Doe"}`. -/
theorem C1_founded_by_drops_second_name :
    extract_from_founded_by "Founded by Jane Doe and John Smith" = ["Jane Doe"] ∧
      foundedByBlobs "Founded by Jane Doe and John Smith" = ["Jane Doe and John"] := by
  decide

/-- Parsed HTML documents (BeautifulSoup trees): text nodes and elements with
tags and children.  HTML parsing itself is an external library; every theorem
over `Dom` quantifies over all trees the parser could produce. -/
inductive Dom where
  | text : String → Dom
  | elem : String → List Dom → Dom

mutual

/-- All text-node strings of a subtree, in document order (`get_text`
building block). -/
def domStrings : Dom → List String
  | .text s => [s]
  | .elem _ cs => domStringsList cs

def domStringsList : List Dom → List String
  | [] => []
  | c :: cs => domStrings c ++ domStringsList cs

end

/-- Tags decomposed by `text_from_soup`. -/
def isBadTag : Dom → Bool
  | .text _ => false
  | .elem t _ => t = "script" || t = "style" || t = "noscript" || t = "svg"

mutual

/-- Embeds `for tag in soup(["script","style","noscript","svg"]): tag.decompose()`
(this mutates the soup in the source; modelled as returning the pruned tree). -/
def decomposeBad : Dom → Dom
  | .text s => .text s
  | .elem t cs => .elem t (decomposeBadList cs)

def decomposeBadList : List Dom → List Dom
  | [] => []
  | c :: cs => (if isBadTag c then [] else [decomposeBad c]) ++ decomposeBadList cs

end

/-- Embeds `" ".join(soup.get_text(separator=" ").split())` — the flattening part of
`text_from_soup` (the decompose part is `decomposeBad`). -/
def text_from_soup (soup : Dom) : String :=
  collapseWs (String.intercalate " " (domStrings soup))

/-- The stripped, non-empty text-node strings of a subtree, as BeautifulSoup
`get_text(strip=True)` enumerates them. -/
def strippedTexts (d : Dom) : List String :=
  ((domStrings d).map pyStrip).filter (fun s => s ≠ "")

/-- Embeds `el.get_text(strip=True)` (empty separator). -/
def getTextStrip (d : Dom) : String := String.join (strippedTexts d)

/-- Embeds `" ".join(el.get_text(" ", strip=True).split())`: a container's text. -/
def chunkText (d : Dom) : String :=
  collapseWs (String.intercalate " " (strippedTexts d))

mutual

/-- Text nodes of the tree paired with their ancestor chain, innermost
(parent) first — the parent-pointer information `node.parent` walks use. -/
def textNodesWithChains : Dom → List Dom → List (String × List Dom)
  | .text s, chain => [(s, chain)]
  | .elem t cs, chain => textNodesChainsList cs (Dom.elem t cs :: chain)

def textNodesChainsList : List Dom → List Dom → List (String × List Dom)
  | [], _ => []
  | c :: cs, chain => textNodesWithChains c chain ++ textNodesChainsList cs chain

end

/-- The ancestor walk of `container_texts_with_cues`:
`el, depth = node.parent, 0` then
`while el and el.parent and len(el.get_text(strip=True)) < 2500 and depth < 4`.
The chain holds `node.parent` first; `el.parent` exists iff the chain has a
second entry. -/
def walkUp : List Dom → Nat → Option Dom
  | [], _ => none
  | [el], _ => some el
  | el :: p :: rest, depth =>
    if (getTextStrip el).length < 2500 ∧ depth < 4 then walkUp (p :: rest) (depth + 1)
    else some el

/-- Embeds `soup.find_all(string=FOUNDER_CUE)` membership test: `FOUNDER_CUE.search`. -/
def cueMatches (s : String) : Bool := reSearch FOUNDER_CUE s.data

/-- Embeds `container_texts_with_cues` from the source: for each cue-bearing text
node, walk up and emit the final element's collapsed text. -/
def container_texts_with_cues (dom : Dom) : List String :=
  (textNodesWithChains dom []).foldr (fun sc acc =>
    if cueMatches sc.1 then
      match walkUp sc.2 0 with
      | some el => chunkText el :: acc
      | none => acc
    else acc) []

/-- The per-chunk body of `extract_from_cue_containers`: run
`FOUNDER_NAME_RIGHT` (group 1) then `FOUNDER_NAME_LEFT` (group 2) over the
chunk, validating each stripped span before insertion. -/
def namesFromChunk (out : List String) (chunk : String) : List String :=
  let out1 := (reFindIter FOUNDER_NAME_RIGHT chunk.data).foldl (fun o caps =>
    let nm := pyStrip (String.mk (getCap caps 1))
    if is_plausible_person_name nm then setAdd o nm else o) out
  (reFindIter FOUNDER_NAME_LEFT chunk.data).foldl (fun o caps =>
    let nm := pyStrip (String.mk (getCap caps 2))
    if is_plausible_person_name nm then setAdd o nm else o) out1

/-- Embeds `extract_from_cue_containers` from the source. -/
def extract_from_cue_containers (dom : Dom) : List String :=
  (container_texts_with_cues dom).foldl namesFromChunk []

/-- Embeds `extract_founders_from_html` from the source.  `text_from_soup` mutates
the soup by decomposing script/style/noscript/svg subtrees before
`extract_from_cue_containers` runs, so both passes see the pruned tree. -/
def extract_founders_from_html (dom : Dom) : List String :=
  let soup := decomposeBad dom
  let text := text_from_soup soup
  (extract_from_cue_containers soup).foldl setAdd (extract_from_founded_by text)

/-- Group 2 (the name span) of each `FOUNDER_NAME_LEFT` match in a chunk. -/
def leftNameSpans (chunk : String) : List String :=
  (reFindIter FOUNDER_NAME_LEFT chunk.data).map (fun caps => String.mk (getCap caps 2))

/-- Claim C6: on the container text `"Co-Founder Jane Doe leads product"` the
cue-then-name pattern does not yield `"Jane Doe"`: under `re.I` the words
`leads` and `product` match `[A-Z][a-z]+`, so the greedy span captured by
`FOUNDER_NAME_LEFT` is `"Jane Doe leads product"`, which fails validation,
and nothing at all is extracted from the chunk. -/
theorem C6_cue_then_name_yields_nothing :
    namesFromChunk [] "Co-Founder Jane Doe leads product" = [] ∧
      leftNameSpans "Co-Founder Jane Doe leads product" = ["Jane Doe leads product"] := by
  decide

theorem dropWhile_all_false (p : Char → Bool) (l : List Char)
    (h : ∀ c ∈ l, p c = false) : l.dropWhile p = l := by
  cases l with
  | nil => rfl
  | cons c cs =>
    rw [List.dropWhile_cons, if_neg]
    rw [h c (List.mem_cons_self c cs)]
    simp

theorem pyStrip_of_no_ws (l : List Char) (h : ∀ c ∈ l, pyIsSpace c = false) :
    pyStrip (String.mk l) = String.mk l := by
  unfold pyStrip
  rw [dropWhile_all_false pyIsSpace l h]
  rw [dropWhile_all_false pyIsSpace l.reverse (fun c hc => h c (List.mem_reverse.mp hc))]
  rw [List.reverse_reverse]

theorem splitWsAux_all_nonspace (l : List Char) :
    ∀ acc : List Char, (∀ c ∈ l, pyIsSpace c = false) → (acc = [] → l ≠ []) →
      splitWsAux l acc = [String.mk (acc.reverse ++ l)] := by
  induction l with
  | nil =>
    intro acc _ hne
    have hacc : acc ≠ [] := fun h => (hne h) rfl
    unfold splitWsAux
    rw [if_neg (by simpa using hacc)]
    simp
  | cons c cs ih =>
    intro acc hl _
    unfold splitWsAux
    rw [if_neg (by rw [hl c (List.mem_cons_self c cs)]; simp)]
    rw [ih (c :: acc) (fun d hd => hl d (List.mem_cons_of_mem c hd)) (by simp)]
    simp

/-- Counterexample document for C2: a single text node of 2501 non-whitespace
characters beginning with the cue `founder.`, directly inside a `p` element. -/
def bigData : List Char :=
  'f' :: 'o' :: 'u' :: 'n' :: 'd' :: 'e' :: 'r' :: '.' :: List.replicate 2493 'a'

/-- The 2501-character cue-bearing text. -/
def bigText : String := String.mk bigData

/-- The `p` element holding the oversized text. -/
def c2P : Dom := Dom.elem "p" [Dom.text bigText]

/-- The counterexample document. -/
def c2Dom : Dom := Dom.elem "[document]" [c2P]

theorem bigData_no_ws : ∀ c ∈ bigData, pyIsSpace c = false := by
  intro c hc
  simp only [bigData, List.mem_cons] at hc
  rcases hc with rfl | rfl | rfl | rfl | rfl | rfl | rfl | rfl | hc
  · decide
  · decide
  · decide
  · decide
  · decide
  · decide
  · decide
  · decide
  · rw [List.eq_of_mem_replicate hc]; decide

theorem bigText_length : bigText.length = 2501 := by
  show bigData.length = 2501
  unfold bigData
  simp only [List.length_cons, List.length_replicate]

theorem bigText_ne_empty : bigText ≠ "" := by
  intro h
  have := bigText_length
  rw [h] at this
  exact absurd this (by decide)

theorem bigText_strip : pyStrip bigText = bigText :=
  pyStrip_of_no_ws bigData bigData_no_ws

theorem c2P_strippedTexts : strippedTexts c2P = [bigText] := by
  show (([bigText].map pyStrip).filter (fun s => s ≠ "")) = [bigText]
  rw [List.map_cons, List.map_nil, bigText_strip]
  rw [List.filter_cons, if_pos (by exact decide_eq_true bigText_ne_empty)]
  rw [List.filter_nil]

theorem c2P_getTextStrip : getTextStrip c2P = bigText := by
  unfold getTextStrip
  rw [c2P_strippedTexts]
  rfl

theorem bigData_ne_nil : bigData ≠ [] := by
  unfold bigData
  exact List.cons_ne_nil _ _

theorem bigText_pySplit : pySplit bigText = [bigText] := by
  show splitWsAux bigData [] = [bigText]
  rw [splitWsAux_all_nonspace bigData [] bigData_no_ws (fun _ => bigData_ne_nil)]
  rfl

theorem c2P_chunkText : chunkText c2P = bigText := by
  unfold chunkText
  rw [c2P_strippedTexts]
  have h1 : String.intercalate " " [bigText] = bigText := rfl
  rw [h1]
  unfold collapseWs
  rw [bigText_pySplit]
  exact h1

theorem c2_walk : walkUp [c2P, c2Dom] 0 = some c2P := by
  unfold walkUp
  rw [if_neg]
  intro hcond
  have := hcond.1
  rw [c2P_getTextStrip, bigText_length] at this
  exact absurd this (by decide)

theorem reSearchAux_succ (e : RE) (f : Nat) (prev : Option Char) (s : List Char)
    (h : (reMatchTop e prev s).isSome = true) : reSearchAux e (f + 1) prev s = true := by
  unfold reSearchAux
  rw [h]
  rfl

set_option maxRecDepth 8000 in
theorem c2_cue : cueMatches bigText = true := by
  unfold cueMatches reSearch
  apply reSearchAux_succ
  rfl

theorem foldr_containers_mem :
    ∀ (l : List (String × List Dom)) (s : String) (chain : List Dom) (el : Dom),
      (s, chain) ∈ l → cueMatches s = true → walkUp chain 0 = some el →
      chunkText el ∈ l.foldr (fun sc acc =>
        if cueMatches sc.1 then
          match walkUp sc.2 0 with
          | some e2 => chunkText e2 :: acc
          | none => acc
        else acc) [] := by
  intro l
  induction l with
  | nil => intro s chain el hmem _ _; exact absurd hmem (List.not_mem_nil _)
  | cons sc rest ih =>
    intro s chain el hmem hcue hwalk
    rw [List.foldr_cons]
    rcases List.mem_cons.mp hmem with heq | hmem2
    · have hc : cueMatches sc.1 = true := by rw [← heq]; exact hcue
      have hw : walkUp sc.2 0 = some el := by rw [← heq]; exact hwalk
      rw [if_pos hc, hw]
      exact List.mem_cons_self _ _
    · have hrec := ih s chain el hmem2 hcue hwalk
      by_cases hc : cueMatches sc.1 = true
      · rw [if_pos hc]
        cases hw2 : walkUp sc.2 0 with
        | some e2 => exact List.mem_cons_of_mem _ hrec
        | none => exact hrec
      · rw [if_neg hc]
        exact hrec

set_option maxRecDepth 8000 in
theorem textNodes_c2 : textNodesWithChains c2Dom [] = [(bigText, [c2P, c2Dom])] := rfl

/-- Claim C2, counterexample: in the document `c2Dom` the single returned
text container has 2501 visible characters, exceeding the claimed
2500-character cap — the walk checks the cap only before stepping upward, so
the element it stops at may already be over the cap. -/
theorem C2_counterexample :
    ∃ t ∈ container_texts_with_cues c2Dom, 2500 < t.length := by
  refine ⟨chunkText c2P, ?_, ?_⟩
  · unfold container_texts_with_cues
    rw [textNodes_c2]
    exact foldr_containers_mem _ bigText [c2P, c2Dom] c2P
      (List.mem_singleton_self _) c2_cue c2_walk
  · rw [c2P_chunkText, bigText_length]
    decide

theorem walkUp_spec :
    ∀ (chain : List Dom) (d : Nat) (el : Dom), d ≤ 4 → walkUp chain d = some el →
      ∃ k, k + d ≤ 4 ∧ chain[k]? = some el ∧
        ∀ j < k, ∃ ej, chain[j]? = some ej ∧ (getTextStrip ej).length < 2500 := by
  intro chain
  induction chain with
  | nil => intro d el _ h; simp [walkUp] at h
  | cons e0 rest ih =>
    intro d el hd h
    cases rest with
    | nil =>
      have he : e0 = el := by
        simp only [walkUp] at h
        exact Option.some.inj h
      refine ⟨0, by omega, by rw [he]; rfl, ?_⟩
      intro j hj
      exact absurd hj (Nat.not_lt_zero j)
    | cons p rest2 =>
      by_cases hc : (getTextStrip e0).length < 2500 ∧ d < 4
      · rw [walkUp, if_pos hc] at h
        obtain ⟨k, hk, hget, hsteps⟩ := ih (d + 1) el (by omega) h
        refine ⟨k + 1, by omega, by simpa using hget, ?_⟩
        intro j hj
        cases j with
        | zero => exact ⟨e0, rfl, hc.1⟩
        | succ j2 =>
          obtain ⟨ej, hej, hlt⟩ := hsteps j2 (by omega)
          exact ⟨ej, by simpa using hej, hlt⟩
      · rw [walkUp, if_neg hc] at h
        have he : e0 = el := Option.some.inj h
        refine ⟨0, by omega, by rw [he]; rfl, ?_⟩
        intro j hj
        exact absurd hj (Nat.not_lt_zero j)

theorem mem_containers_aux :
    ∀ (l : List (String × List Dom)) (t : String),
      t ∈ l.foldr (fun sc acc =>
        if cueMatches sc.1 then
          match walkUp sc.2 0 with
          | some e2 => chunkText e2 :: acc
          | none => acc
        else acc) [] →
      ∃ sc ∈ l, cueMatches sc.1 = true ∧ ∃ el, walkUp sc.2 0 = some el ∧ t = chunkText el := by
  intro l
  induction l with
  | nil => intro t ht; exact absurd ht (List.not_mem_nil t)
  | cons sc rest ih =>
    intro t ht
    rw [List.foldr_cons] at ht
    by_cases hc : cueMatches sc.1 = true
    · rw [if_pos hc] at ht
      cases hw : walkUp sc.2 0 with
      | some e2 =>
        rw [hw] at ht
        rcases List.mem_cons.mp ht with h | h
        · exact ⟨sc, List.mem_cons_self sc rest, hc, e2, hw, h⟩
        · obtain ⟨sc2, hm, hc2, el, hw2, hteq⟩ := ih t h
          exact ⟨sc2, List.mem_cons_of_mem sc hm, hc2, el, hw2, hteq⟩
      | none =>
        rw [hw] at ht
        obtain ⟨sc2, hm, hc2, el, hw2, hteq⟩ := ih t ht
        exact ⟨sc2, List.mem_cons_of_mem sc hm, hc2, el, hw2, hteq⟩
    · rw [if_neg hc] at ht
      obtain ⟨sc2, hm, hc2, el, hw2, hteq⟩ := ih t ht
      exact ⟨sc2, List.mem_cons_of_mem sc hm, hc2, el, hw2, hteq⟩

/-- Claim C2, amended: every text container returned by
`container_texts_with_cues` comes from a cue-bearing text node and is the
collapsed text of an element reached from that node's parent by at most 4
upward steps, where every element actually stepped away from had stripped
text under 2500 characters.  The further claim that the final container's own
text stays within 2500 characters is false (see `C2_counterexample`): the cap
is only checked before stepping, never on the element finally returned. -/
theorem C2_amended_walk_bounds (dom : Dom) (t : String)
    (ht : t ∈ container_texts_with_cues dom) :
    ∃ sc ∈ textNodesWithChains dom [], cueMatches sc.1 = true ∧
      ∃ el k, walkUp sc.2 0 = some el ∧ t = chunkText el ∧ k ≤ 4 ∧
        sc.2[k]? = some el ∧
        ∀ j < k, ∃ ej, sc.2[j]? = some ej ∧ (getTextStrip ej).length < 2500 := by
  unfold container_texts_with_cues at ht
  obtain ⟨sc, hmem, hcue, el, hwalk, hteq⟩ := mem_containers_aux _ t ht
  obtain ⟨k, hk, hget, hsteps⟩ := walkUp_spec sc.2 0 el (by omega) hwalk
  exact ⟨sc, hmem, hcue, el, k, hwalk, hteq, by omega, hget, hsteps⟩

/-- A small document used to witness the amended C2. -/
def w2Dom : Dom := Dom.elem "[document]" [Dom.elem "p" [Dom.text "Founder Jane"]]

/-- Witness for the amended C2 on a concrete small document. -/
theorem C2_amended_witness :
    ∃ sc ∈ textNodesWithChains w2Dom [], cueMatches sc.1 = true ∧
      ∃ el k, walkUp sc.2 0 = some el ∧ "Founder Jane" = chunkText el ∧ k ≤ 4 ∧
        sc.2[k]? = some el ∧
        ∀ j < k, ∃ ej, sc.2[j]? = some ej ∧ (getTextStrip ej).length < 2500 :=
  C2_amended_walk_bounds w2Dom "Founder Jane" (by decide)

theorem mem_setAdd {s : List String} {x y : String} (h : x ∈ setAdd s y) : x ∈ s ∨ x = y := by
  unfold setAdd at h
  by_cases hy : y ∈ s
  · rw [if_pos hy] at h
    exact Or.inl h
  · rw [if_neg hy] at h
    rcases List.mem_append.mp h with h1 | h1
    · exact Or.inl h1
    · exact Or.inr (List.mem_singleton.mp h1)

theorem mem_foldl_pres {β : Type} (P : String → Prop) (step : List String → β → List String)
    (hstep : ∀ o b x, x ∈ step o b → x ∈ o ∨ P x) :
    ∀ (l : List β) (init : List String) (x : String), x ∈ l.foldl step init → x ∈ init ∨ P x := by
  intro l
  induction l with
  | nil => intro init x hx; exact Or.inl hx
  | cons b bs ih =>
    intro init x hx
    rw [List.foldl_cons] at hx
    rcases ih (step init b) x hx with h1 | h1
    · exact hstep init b x h1
    · exact Or.inr h1

theorem mem_guard_step {o : List String} {nm x : String}
    (hx : x ∈ (if is_plausible_person_name nm then setAdd o nm else o)) :
    x ∈ o ∨ is_plausible_person_name x = true := by
  by_cases hn : is_plausible_person_name nm = true
  · rw [if_pos hn] at hx
    rcases mem_setAdd hx with h | h
    · exact Or.inl h
    · exact Or.inr (by rw [h]; exact hn)
  · rw [if_neg hn] at hx
    exact Or.inl hx

theorem guarded_fold_validated {β : Type} (f : β → String) :
    ∀ (l : List β) (init : List String) (x : String),
      x ∈ l.foldl (fun o b => if is_plausible_person_name (f b) then setAdd o (f b) else o) init →
      x ∈ init ∨ is_plausible_person_name x = true :=
  mem_foldl_pres (fun y => is_plausible_person_name y = true)
    (fun o b => if is_plausible_person_name (f b) then setAdd o (f b) else o)
    (fun _ _ _ hy => mem_guard_step hy)

theorem split_fold_validated (o : List String) (blob : String) (x : String)
    (hx : x ∈ (splitByRe SEP_SPLIT blob.data).foldl (fun out2 p =>
      let cand := pyStrip p
      if is_plausible_person_name cand then setAdd out2 cand else out2) o) :
    x ∈ o ∨ is_plausible_person_name x = true :=
  guarded_fold_validated (fun p => pyStrip p) (splitByRe SEP_SPLIT blob.data) o x hx

theorem extract_from_founded_by_validated (text : String) (x : String)
    (hx : x ∈ extract_from_founded_by text) : is_plausible_person_name x = true := by
  unfold extract_from_founded_by at hx
  rcases mem_foldl_pres (fun y => is_plausible_person_name y = true)
    (fun out blob => (splitByRe SEP_SPLIT blob.data).foldl (fun out2 p =>
      let cand := pyStrip p
      if is_plausible_person_name cand then setAdd out2 cand else out2) out)
    (fun o b y hy => split_fold_validated o b y hy)
    (foundedByBlobs text) [] x hx with h | h
  · exact absurd h (List.not_mem_nil x)
  · exact h

theorem namesFromChunk_validated (out : List String) (chunk : String) (x : String)
    (hx : x ∈ namesFromChunk out chunk) : x ∈ out ∨ is_plausible_person_name x = true := by
  unfold namesFromChunk at hx
  rcases guarded_fold_validated (fun caps => pyStrip (String.mk (getCap caps 2)))
    (reFindIter FOUNDER_NAME_LEFT chunk.data) _ x hx with h1 | h1
  · rcases guarded_fold_validated (fun caps => pyStrip (String.mk (getCap caps 1)))
      (reFindIter FOUNDER_NAME_RIGHT chunk.data) out x h1 with h2 | h2
    · exact Or.inl h2
    · exact Or.inr h2
  · exact Or.inr h1

theorem extract_from_cue_containers_validated (dom : Dom) (x : String)
    (hx : x ∈ extract_from_cue_containers dom) : is_plausible_person_name x = true := by
  unfold extract_from_cue_containers at hx
  rcases mem_foldl_pres (fun y => is_plausible_person_name y = true) namesFromChunk
    (fun o b y hy => namesFromChunk_validated o b y hy)
    (container_texts_with_cues dom) [] x hx with h | h
  · exact absurd h (List.not_mem_nil x)
  · exact h

theorem mem_foldl_setAdd :
    ∀ (l : List String) (init : List String) (x : String),
      x ∈ l.foldl setAdd init → x ∈ init ∨ x ∈ l := by
  intro l
  induction l with
  | nil => intro init x hx; exact Or.inl hx
  | cons b bs ih =>
    intro init x hx
    rw [List.foldl_cons] at hx
    rcases ih (setAdd init b) x hx with h | h
    · rcases mem_setAdd h with h2 | h2
      · exact Or.inl h2
      · exact Or.inr (by rw [h2]; exact List.mem_cons_self b bs)
    · exact Or.inr (List.mem_cons_of_mem b h)

theorem extract_founders_from_html_validated (dom : Dom) (x : String)
    (hx : x ∈ extract_founders_from_html dom) : is_plausible_person_name x = true := by
  unfold extract_founders_from_html at hx
  rcases mem_foldl_setAdd _ _ x hx with h | h
  · exact extract_from_founded_by_validated _ x h
  · exact extract_from_cue_containers_validated _ x h

/-- Claim C3: for every parsed input document, every string returned by the
Page Extractor `extract_founders_from_html` satisfies the Name Plausibility
Validator — both extraction paths validate each candidate before inserting it,
and the final union only merges those two validated sets. -/
theorem C3_extracted_names_validated (dom : Dom) (x : String)
    (hx : x ∈ extract_founders_from_html dom) : is_plausible_person_name x = true :=
  extract_founders_from_html_validated dom x hx

/-- Document used to witness C3. -/
def c3Dom : Dom :=
  Dom.elem "[document]" [Dom.elem "p" [Dom.text "Acme was founded by Jane Doe."]]

/-- Witness for C3: `"Jane Doe"` is extracted from `c3Dom` and validated. -/
theorem C3_witness : is_plausible_person_name "Jane Doe" = true :=
  C3_extracted_names_validated c3Dom "Jane Doe" (by decide)

/-- Scheme characters after the first, as accepted by `urllib.parse`:
letters, digits, `+`, `-`, `.`. -/
def isSchemeChar (c : Char) : Bool := c.isAlpha || c.isDigit || c = '+' || c = '-' || c = '.'

/-- Scan the rest of a candidate `scheme:` prefix up to the colon. -/
def takeSchemeAux : List Char → List Char → Option (List Char × List Char)
  | _, [] => none
  | acc, c :: rest =>
    if c = ':' then some (acc.reverse, rest)
    else if isSchemeChar c then takeSchemeAux (c :: acc) rest
    else none

/-- Split a candidate `scheme:` prefix (first char must be a letter). -/
def takeScheme : List Char → Option (List Char × List Char)
  | [] => none
  | c :: rest => if c.isAlpha then takeSchemeAux [c] rest else none

/-- The part of the remainder that is a network location: only after `//`,
up to the next `/`, `?` or `#`. -/
def netlocOf : List Char → String
  | '/' :: '/' :: r => String.mk (r.takeWhile (fun c => !(c = '/' || c = '?' || c = '#')))
  | _ => ""

/-- The two fields of `urllib.parse.urlparse` the source reads. -/
structure UrlParts where
  scheme : String
  netloc : String

/-- Embeds `urllib.parse.urlparse`, modelled for the fields the source uses:
`scheme` (lowercased; empty when no valid `scheme:` prefix exists) and
`netloc`. -/
def urlparse (url : String) : UrlParts :=
  match takeScheme url.data with
  | some (sch, rest) => ⟨String.mk (sch.map toLowerAscii), netlocOf rest⟩
  | none => ⟨"", netlocOf url.data⟩

/-- Embeds `canonical_base` from the source: if the parsed scheme is empty, prepend
`https://` and re-parse; return `f"{p.scheme}://{p.netloc}"`. -/
def canonical_base (url : String) : String :=
  if (urlparse url).scheme = "" then
    (urlparse ("https://" ++ url)).scheme ++ "://" ++ (urlparse ("https://" ++ url)).netloc
  else
    (urlparse url).scheme ++ "://" ++ (urlparse url).netloc

/-- Claim C9: for every URL string whose parsed scheme is empty,
`canonical_base` returns `"https://"` followed by the host obtained by
re-parsing the string with `"https://"` prepended. -/
theorem C9_missing_scheme_defaults_to_https (url : String)
    (h : (urlparse url).scheme = "") :
    canonical_base url = "https://" ++ (urlparse ("https://" ++ url)).netloc := by
  unfold canonical_base
  rw [if_pos h]
  have hs : (urlparse ("https://" ++ url)).scheme = "https" := by
    obtain ⟨d⟩ := url
    rfl
  rw [hs]
  rw [show ("https" : String) ++ "://" = "https://" from rfl]

/-- Witness for C9 at the concrete scheme-less URL `"acme.example/about"`. -/
theorem C9_witness :
    (urlparse "acme.example/about").scheme = "" ∧
      canonical_base "acme.example/about" = "https://acme.example" := by
  refine ⟨by decide, ?_⟩
  rw [C9_missing_scheme_defaults_to_https "acme.example/about" (by decide)]
  decide

/-- Embeds `[^)]+\)$` after the first body character has been seen: accumulate
non-`)` characters; the first `)` must be the last character of the line. -/
def tryUrlBodyMore (acc : List Char) : List Char → Option (List Char)
  | [] => none
  | c :: rest =>
    if c = ')' then (if rest = [] then some acc.reverse else none)
    else tryUrlBodyMore (c :: acc) rest

/-- Embeds `[^)]+\)$`: at least one non-`)` character, then `)` ending the line. -/
def tryUrlBody : List Char → Option (List Char)
  | [] => none
  | c :: rest => if c = ')' then none else tryUrlBodyMore [c] rest

/-- Embeds `(https?://[^)]+)\)$` after the opening parenthesis: the literal scheme
(`https?` is exactly a `https://` or `http://` prefix, the two being mutually
exclusive), the body, the closing parenthesis at end of line; returns the
captured group 2 (scheme plus body). -/
def tryUrlScheme (rest : List Char) : Option (List Char) :=
  if rest.take 8 = "https://".data then
    (tryUrlBody (rest.drop 8)).map (fun b => "https://".data ++ b)
  else if rest.take 7 = "http://".data then
    (tryUrlBody (rest.drop 7)).map (fun b => "http://".data ++ b)
  else none

/-- The optional trailing group `\s*\((https?://[^)]+)\)$` of
`parse_company_line`'s regex, tried at one split position.  The character
classes involved are disjoint, so this direct parse is the regex's exact
matcher at that position. -/
def tryUrl (suffix : List Char) : Option (List Char) :=
  match suffix.dropWhile pyIsSpace with
  | '(' :: rest => tryUrlScheme rest
  | _ => none

/-- Embeds `re.match(r"^(.*?)(?:\s*\((https?://[^)]+)\))?$", line)` on the stripped
line: the lazy `.*?` tries split positions left to right, so the first
position whose suffix matches the trailing URL group wins; `.` does not match
a newline, so scanning stops at one; when no position matches, the regex
matches with the group absent and group 1 is the whole line (and when an
interior newline blocks even that, `re.match` returns `None` and the source
falls back to the same whole-line result). -/
def scanSplits (whole : String) : List Char → List Char → String × Option String
  | pre, [] =>
    (tryUrl []).elim (whole, none)
      (fun u => (pyStrip (String.mk pre.reverse), some (pyStrip (String.mk u))))
  | pre, c :: rest =>
    (tryUrl (c :: rest)).elim
      (if c = '\n' then (whole, none) else scanSplits whole (c :: pre) rest)
      (fun u => (pyStrip (String.mk pre.reverse), some (pyStrip (String.mk u))))

/-- Embeds `parse_company_line` from the source (`line.strip()`, empty check, then
the anchored regex match). -/
def parse_company_line (line : String) : String × Option String :=
  if pyStrip line = "" then ("", none)
  else scanSplits (pyStrip line) [] (pyStrip line).data

theorem tryUrlBodyMore_sound :
    ∀ (l acc b : List Char), tryUrlBodyMore acc l = some b →
      ∃ br, b = acc.reverse ++ br ∧ l = br ++ [')'] := by
  intro l
  induction l with
  | nil => intro acc b h; exact absurd h (by simp [tryUrlBodyMore])
  | cons c rest ih =>
    intro acc b h
    rw [tryUrlBodyMore] at h
    by_cases hc : c = ')'
    · rw [if_pos hc] at h
      by_cases hr : rest = []
      · rw [if_pos hr] at h
        refine ⟨[], ?_, ?_⟩
        · rw [← Option.some.inj h]; simp
        · rw [hr, hc]; rfl
      · rw [if_neg hr] at h
        exact absurd h (by simp)
    · rw [if_neg hc] at h
      obtain ⟨br, hb, hl⟩ := ih (c :: acc) b h
      refine ⟨c :: br, ?_, ?_⟩
      · rw [hb]; simp
      · rw [hl, List.cons_append]

theorem tryUrlBody_sound (body b : List Char) (h : tryUrlBody body = some b) :
    body = b ++ [')'] := by
  cases body with
  | nil => exact absurd h (by simp [tryUrlBody])
  | cons c rest =>
    rw [tryUrlBody] at h
    by_cases hc : c = ')'
    · rw [if_pos hc] at h; exact absurd h (by simp)
    · rw [if_neg hc] at h
      obtain ⟨br, hb, hl⟩ := tryUrlBodyMore_sound rest [c] b h
      rw [hl, hb]
      simp

theorem tryUrlScheme_sound (rest raw : List Char) (h : tryUrlScheme rest = some raw) :
    rest = raw ++ [')'] ∧
      ("http://".data <+: raw ∨ "https://".data <+: raw) := by
  unfold tryUrlScheme at h
  by_cases h8 : rest.take 8 = "https://".data
  · rw [if_pos h8] at h
    cases hb : tryUrlBody (rest.drop 8) with
    | none => rw [hb] at h; exact absurd h (by simp)
    | some b =>
      rw [hb, show Option.map (fun b => "https://".data ++ b) (some b) =
        some ("https://".data ++ b) from rfl] at h
      have hraw : raw = "https://".data ++ b := (Option.some.inj h).symm
      refine ⟨?_, Or.inr ⟨b, hraw.symm⟩⟩
      have hbody := tryUrlBody_sound _ b hb
      calc rest = rest.take 8 ++ rest.drop 8 := (List.take_append_drop 8 rest).symm
        _ = "https://".data ++ (b ++ [')']) := by rw [h8, hbody]
        _ = raw ++ [')'] := by rw [hraw, List.append_assoc]
  · rw [if_neg h8] at h
    by_cases h7 : rest.take 7 = "http://".data
    · rw [if_pos h7] at h
      cases hb : tryUrlBody (rest.drop 7) with
      | none => rw [hb] at h; exact absurd h (by simp)
      | some b =>
        rw [hb, show Option.map (fun b => "http://".data ++ b) (some b) =
          some ("http://".data ++ b) from rfl] at h
        have hraw : raw = "http://".data ++ b := (Option.some.inj h).symm
        refine ⟨?_, Or.inl ⟨b, hraw.symm⟩⟩
        have hbody := tryUrlBody_sound _ b hb
        calc rest = rest.take 7 ++ rest.drop 7 := (List.take_append_drop 7 rest).symm
          _ = "http://".data ++ (b ++ [')']) := by rw [h7, hbody]
          _ = raw ++ [')'] := by rw [hraw, List.append_assoc]
    · rw [if_neg h7] at h
      exact absurd h (by simp)

theorem tryUrl_sound (suf raw : List Char) (h : tryUrl suf = some raw) :
    ∃ sp, suf = sp ++ '(' :: raw ++ [')'] ∧
      ("http://".data <+: raw ∨ "https://".data <+: raw) := by
  unfold tryUrl at h
  cases hd : suf.dropWhile pyIsSpace with
  | nil => rw [hd] at h; exact absurd h (by simp)
  | cons c rest =>
    rw [hd] at h
    by_cases hc : c = '('
    · subst hc
      obtain ⟨hr, hscheme⟩ := tryUrlScheme_sound rest raw h
      refine ⟨suf.takeWhile pyIsSpace, ?_, hscheme⟩
      rw [List.append_assoc, List.cons_append, ← hr, ← hd, List.takeWhile_append_dropWhile]
    · exfalso
      cases c
      simp_all [tryUrl]

theorem scanSplits_some :
    ∀ (suf pre : List Char) (whole : String) (u : String),
      (scanSplits whole pre suf).2 = some u →
      ∃ pre2 raw, pre.reverse ++ suf = pre2 ++ '(' :: raw ++ [')'] ∧
        u = pyStrip (String.mk raw) ∧
        ("http://".data <+: raw ∨ "https://".data <+: raw) := by
  intro suf
  induction suf with
  | nil =>
    intro pre whole u h
    simp only [scanSplits] at h
    rw [show tryUrl [] = none from rfl] at h
    exact absurd h (by simp)
  | cons c rest ih =>
    intro pre whole u h
    simp only [scanSplits] at h
    cases htry : tryUrl (c :: rest) with
    | some raw =>
      rw [htry] at h
      simp only [Option.elim] at h
      obtain ⟨sp, hsuf, hscheme⟩ := tryUrl_sound _ raw htry
      refine ⟨pre.reverse ++ sp, raw, ?_, (Option.some.inj h).symm, hscheme⟩
      rw [hsuf]
      simp [List.append_assoc]
    | none =>
      rw [htry] at h
      simp only [Option.elim] at h
      by_cases hn : c = '\n'
      · rw [if_pos hn] at h
        exact absurd h (by simp)
      · rw [if_neg hn] at h
        obtain ⟨pre2, raw, heq, hu, hsch⟩ := ih (c :: pre) whole u h
        refine ⟨pre2, raw, ?_, hu, hsch⟩
        rw [← heq]
        simp [List.append_assoc]

theorem scanSplits_none :
    ∀ (suf pre : List Char) (whole : String),
      (scanSplits whole pre suf).2 = none → (scanSplits whole pre suf).1 = whole := by
  intro suf
  induction suf with
  | nil =>
    intro pre whole _
    simp only [scanSplits]
    rw [show tryUrl [] = none from rfl]
    rfl
  | cons c rest ih =>
    intro pre whole h
    simp only [scanSplits] at h ⊢
    cases htry : tryUrl (c :: rest) with
    | some raw =>
      rw [htry] at h
      exact absurd h (by simp)
    | none =>
      rw [htry] at h
      simp only [Option.elim] at h ⊢
      by_cases hn : c = '\n'
      · rw [if_pos hn]
      · rw [if_neg hn] at h ⊢
        exact ih (c :: pre) whole h

/-- Claim C10: `parse_company_line` recognizes a trailing parenthetical as a
company URL only when its content begins with the literal scheme `http://` or
`https://` — any returned URL is the stripped content of a trailing
`( ... )` group whose content starts with one of those schemes — and whenever
no URL is returned (every other line, including ones ending in a
parenthetical without such a scheme), the entire stripped line becomes the
company name. -/
theorem C10_trailing_url_requires_scheme (line : String) :
    (∀ u, (parse_company_line line).2 = some u →
      ∃ pre raw, (pyStrip line).data = pre ++ '(' :: raw ++ [')'] ∧
        u = pyStrip (String.mk raw) ∧
        ("http://".data <+: raw ∨ "https://".data <+: raw)) ∧
    ((parse_company_line line).2 = none → (parse_company_line line).1 = pyStrip line) := by
  constructor
  · intro u hu
    unfold parse_company_line at hu
    by_cases hl : pyStrip line = ""
    · rw [if_pos hl] at hu
      exact absurd hu (by simp)
    · rw [if_neg hl] at hu
      obtain ⟨pre2, raw, heq, hueq, hsch⟩ :=
        scanSplits_some (pyStrip line).data [] (pyStrip line) u hu
      refine ⟨pre2, raw, ?_, hueq, hsch⟩
      rw [← heq]
      simp
  · intro hn
    unfold parse_company_line at hn ⊢
    by_cases hl : pyStrip line = ""
    · rw [if_pos hl]
      simp [hl]
    · rw [if_neg hl] at hn ⊢
      exact scanSplits_none (pyStrip line).data [] (pyStrip line) hn

/-- Witness for C10: the URL case on `"Acme (https://acme.example)"` and the
no-URL case on `"Plain Co"`. -/
theorem C10_witness :
    (∃ pre raw, (pyStrip "Acme (https://acme.example)").data = pre ++ '(' :: raw ++ [')'] ∧
      "https://acme.example" = pyStrip (String.mk raw) ∧
      ("http://".data <+: raw ∨ "https://".data <+: raw)) ∧
    (parse_company_line "Plain Co").1 = pyStrip "Plain Co" :=
  ⟨(C10_trailing_url_requires_scheme "Acme (https://acme.example)").1
      "https://acme.example" (by decide),
    (C10_trailing_url_requires_scheme "Plain Co").2 (by decide)⟩

/-- Embeds `DEFAULT_PATHS` from the source. -/
def DEFAULT_PATHS : List String :=
  ["/", "/about", "/about-us", "/company", "/our-story", "/story",
   "/team", "/leadership", "/management", "/people", "/founders",
   "/press", "/news"]

/-- Embeds `MAX_PAGES` from the source. -/
def MAX_PAGES : Nat := 6

/-- Embeds `urllib.parse.urljoin(base, path)`, modelled for the case the source
uses it in: `base` is a `scheme://host` origin produced by `canonical_base`
and `path` an absolute path, where the join is concatenation. -/
def urljoin (base path : String) : String := base ++ path

/-- Embeds `build_candidate_urls` from the source: join each default path onto the
base, keeping first occurrences only (the `seen` set is exactly membership in
the output list). -/
def build_candidate_urls (base : String) : List String :=
  (DEFAULT_PATHS.map (fun p => urljoin base p)).foldl
    (fun out u => if u ∈ out then out else out ++ [u]) []

/-- The `Company` dataclass. -/
structure Company where
  name : String
  url : Option String
  founders : List String

/-- Observable effects of the crawl driver: robots.txt checks, fetch attempts
(with whether a usable HTML response came back), the fixed inter-request
delay, and the final output write. -/
inductive Event where
  | robotsCheck : String → Bool → Event
  | fetchAttempt : String → Bool → Event
  | sleep : Event
  | write : List (String × List String) → Event

/-- Event trace of `process_company`'s page loop.  `robots` is the
`allowed_by_robots` oracle and `fetchO` the fetch-and-parse oracle (`none`
when the fetch produced nothing usable: non-200, non-HTML content type,
request exception, or empty body — all falsy under `if not html`).  The
`time.sleep` sits at the end of the loop body, after extraction, so only the
fully successful branch emits a sleep. -/
def companyLoopEvents (robots : String → Bool) (fetchO : String → Option Dom) :
    List String → Nat → Nat → List Event
  | [], _, _ => []
  | url :: rest, tried, maxp =>
    if maxp ≤ tried then []
    else if robots url = false then
      Event.robotsCheck url false :: companyLoopEvents robots fetchO rest (tried + 1) maxp
    else
      (fetchO url).elim
        (Event.robotsCheck url true :: Event.fetchAttempt url false ::
          companyLoopEvents robots fetchO rest (tried + 1) maxp)
        (fun _ => Event.robotsCheck url true :: Event.fetchAttempt url true ::
          Event.sleep :: companyLoopEvents robots fetchO rest (tried + 1) maxp)

/-- Founder accumulation of `process_company`'s page loop
(`comp.founders.update(names)` after each successfully fetched page). -/
def companyLoopFounders (robots : String → Bool) (fetchO : String → Option Dom) :
    List String → Nat → Nat → List String → List String
  | [], _, _, fs => fs
  | url :: rest, tried, maxp, fs =>
    if maxp ≤ tried then fs
    else if robots url = false then
      companyLoopFounders robots fetchO rest (tried + 1) maxp fs
    else
      (fetchO url).elim
        (companyLoopFounders robots fetchO rest (tried + 1) maxp fs)
        (fun dom => companyLoopFounders robots fetchO rest (tried + 1) maxp
          ((extract_founders_from_html dom).foldl setAdd fs))

/-- Embeds `process_company`, event view: nothing happens without a URL. -/
def process_company_trace (robots : String → Bool) (fetchO : String → Option Dom)
    (comp : Company) (maxp : Nat) : List Event :=
  (comp.url).elim []
    (fun u => companyLoopEvents robots fetchO (build_candidate_urls (canonical_base u)) 0 maxp)

/-- Embeds `process_company`, founder-set view. -/
def process_company_founders (robots : String → Bool) (fetchO : String → Option Dom)
    (comp : Company) (maxp : Nat) : List String :=
  (comp.url).elim comp.founders
    (fun u => companyLoopFounders robots fetchO (build_candidate_urls (canonical_base u)) 0 maxp
      comp.founders)

/-- The fetch/sleep skeleton of a trace: `true` for a fetch attempt, `false`
for a sleep. -/
def fetchSleepSeq (evs : List Event) : List Bool :=
  evs.filterMap (fun e =>
    match e with
    | Event.fetchAttempt _ _ => some true
    | Event.sleep => some false
    | _ => none)

/-- Does some sleep separate every two consecutive fetch attempts? -/
def sleepBetweenFetches : List Bool → Bool
  | true :: true :: _ => false
  | _ :: rest => sleepBetweenFetches rest
  | [] => true

/-- Claim C7, counterexample: with robots permissive and every fetch yielding
no usable response, `process_company` makes consecutive fetch attempts with
no sleep between them — the `continue` branches skip the `time.sleep`, which
runs only after a successful fetch and extraction. -/
theorem C7_counterexample :
    sleepBetweenFetches (fetchSleepSeq (process_company_trace
      (fun _ => true) (fun _ => none) ⟨"Acme", some "https://acme.example", []⟩
      MAX_PAGES)) = false := by
  decide

theorem sleepsMatch_robots (u : String) (b : Bool) (l : List Event) :
    sleepBetweenFetches (fetchSleepSeq (Event.robotsCheck u b :: l)) =
      sleepBetweenFetches (fetchSleepSeq l) := rfl

/-- Sleeps come exactly after successful fetch attempts: every successful
fetch attempt is immediately followed by a sleep, and every sleep is
immediately preceded by a successful fetch attempt. -/
def sleepsMatchSuccessfulFetches : List Event → Bool
  | [] => true
  | Event.sleep :: _ => false
  | Event.fetchAttempt _ true :: rest =>
    match rest with
    | Event.sleep :: rest2 => sleepsMatchSuccessfulFetches rest2
    | _ => false
  | _ :: rest => sleepsMatchSuccessfulFetches rest

theorem sleepsMatch_robots_cons (u : String) (b : Bool) (l : List Event) :
    sleepsMatchSuccessfulFetches (Event.robotsCheck u b :: l) =
      sleepsMatchSuccessfulFetches l := rfl

theorem sleepsMatch_fetchFalse_cons (u : String) (l : List Event) :
    sleepsMatchSuccessfulFetches (Event.fetchAttempt u false :: l) =
      sleepsMatchSuccessfulFetches l := rfl

theorem sleepsMatch_fetchTrue_sleep_cons (u : String) (l : List Event) :
    sleepsMatchSuccessfulFetches (Event.fetchAttempt u true :: Event.sleep :: l) =
      sleepsMatchSuccessfulFetches l := rfl

theorem companyLoopEvents_sleeps_ok (robots : String → Bool) (fetchO : String → Option Dom) :
    ∀ (urls : List String) (tried maxp : Nat),
      sleepsMatchSuccessfulFetches (companyLoopEvents robots fetchO urls tried maxp) = true := by
  intro urls
  induction urls with
  | nil => intro tried maxp; rfl
  | cons url rest ih =>
    intro tried maxp
    rw [companyLoopEvents]
    by_cases h1 : maxp ≤ tried
    · rw [if_pos h1]; rfl
    · rw [if_neg h1]
      by_cases h2 : robots url = false
      · rw [if_pos h2, sleepsMatch_robots_cons]
        exact ih (tried + 1) maxp
      · rw [if_neg h2]
        cases hf : fetchO url with
        | none =>
          simp only [Option.elim]
          rw [sleepsMatch_robots_cons, sleepsMatch_fetchFalse_cons]
          exact ih (tried + 1) maxp
        | some dom =>
          simp only [Option.elim]
          rw [sleepsMatch_robots_cons, sleepsMatch_fetchTrue_sleep_cons]
          exact ih (tried + 1) maxp

/-- Claim C7, amended: during `process_company`, the fixed delay is taken
exactly after each fetch attempt that yielded a usable HTML response; fetch
attempts that yield nothing usable (and robots-skipped candidates) are not
followed by a delay — the claimed delay between every two consecutive fetch
attempts does not hold (see `C7_counterexample`). -/
theorem C7_amended_sleep_only_after_success (robots : String → Bool)
    (fetchO : String → Option Dom) (comp : Company) (maxp : Nat) :
    sleepsMatchSuccessfulFetches (process_company_trace robots fetchO comp maxp) = true := by
  unfold process_company_trace
  cases hu : comp.url with
  | none => rfl
  | some u =>
    simp only [Option.elim]
    exact companyLoopEvents_sleeps_ok robots fetchO _ 0 maxp

/-- Python dict assignment `results[comp.name] = value`: overwrite in place
when the key exists, append otherwise (insertion order is what `json.dump`
serializes). -/
def dictInsert (m : List (String × List String)) (k : String) (v : List String) :
    List (String × List String) :=
  if m.any (fun p => p.1 = k) then m.map (fun p => if p.1 = k then (k, v) else p)
  else m ++ [(k, v)]

/-- Insertion into a `≤`-sorted list of strings. -/
def insertSorted (x : String) : List String → List String
  | [] => [x]
  | y :: ys => if x ≤ y then x :: y :: ys else y :: insertSorted x ys

/-- Python `sorted(...)` on strings: the ascending lexicographic ordering of
the elements (equal strings are identical, so stability cannot be observed
and insertion sort computes exactly `sorted`'s output). -/
def pySorted (l : List String) : List String := l.foldr insertSorted []

/-- Embeds `read_companies`, over the lines of the input file. -/
def read_companies (lines : List String) : List Company :=
  lines.foldl (fun items ln =>
    if pyStrip ln = "" then items
    else if (parse_company_line (pyStrip ln)).1 = "" then items
    else items ++
      [⟨(parse_company_line (pyStrip ln)).1, (parse_company_line (pyStrip ln)).2, []⟩]) []

/-- Embeds `main`: the final results mapping — one dict assignment per company in
input order, each value the sorted founder list of that company. -/
def main_results (robots : String → Bool) (fetchO : String → Option Dom)
    (lines : List String) : List (String × List String) :=
  (read_companies lines).foldl (fun res comp =>
    dictInsert res comp.name
      (pySorted (process_company_founders robots fetchO comp MAX_PAGES))) []

/-- Is an event the output write? -/
def isWriteEvent : Event → Bool
  | Event.write _ => true
  | _ => false

/-- Embeds `main`: the full effect trace — the per-company crawl events in order,
then the single write of the results file at the end of the run. -/
def main_trace (robots : String → Bool) (fetchO : String → Option Dom)
    (lines : List String) : List Event :=
  ((read_companies lines).foldr (fun comp acc =>
    process_company_trace robots fetchO comp MAX_PAGES ++ acc) []) ++
    [Event.write (main_results robots fetchO lines)]

theorem mem_insertSorted {x y : String} : ∀ l, x ∈ insertSorted y l → x = y ∨ x ∈ l := by
  intro l
  induction l with
  | nil =>
    intro h
    rw [insertSorted] at h
    exact Or.inl (List.mem_singleton.mp h)
  | cons z zs ih =>
    intro h
    rw [insertSorted] at h
    by_cases hle : y ≤ z
    · rw [if_pos hle] at h
      rcases List.mem_cons.mp h with h1 | h1
      · exact Or.inl h1
      · exact Or.inr h1
    · rw [if_neg hle] at h
      rcases List.mem_cons.mp h with h1 | h1
      · exact Or.inr (by rw [h1]; exact List.mem_cons_self z zs)
      · rcases ih h1 with h2 | h2
        · exact Or.inl h2
        · exact Or.inr (List.mem_cons_of_mem z h2)

theorem mem_pySorted {x : String} : ∀ l, x ∈ pySorted l → x ∈ l := by
  intro l
  induction l with
  | nil => intro h; exact absurd h (List.not_mem_nil x)
  | cons y ys ih =>
    intro h
    rw [pySorted, List.foldr_cons] at h
    rcases mem_insertSorted _ h with h1 | h1
    · exact h1 ▸ List.mem_cons_self y ys
    · exact List.mem_cons_of_mem y (ih h1)

theorem sorted_insertSorted (x : String) :
    ∀ l, List.Pairwise (fun a b => a ≤ b) l →
      List.Pairwise (fun a b => a ≤ b) (insertSorted x l) := by
  intro l
  induction l with
  | nil =>
    intro _
    rw [insertSorted]
    exact List.pairwise_singleton _ x
  | cons y ys ih =>
    intro hp
    rw [insertSorted]
    by_cases hle : x ≤ y
    · rw [if_pos hle]
      refine List.Pairwise.cons ?_ hp
      intro z hz
      rcases List.mem_cons.mp hz with h1 | h1
      · rw [h1]; exact hle
      · exact le_trans hle (List.rel_of_pairwise_cons hp h1)
    · rw [if_neg hle]
      refine List.Pairwise.cons ?_ (ih (List.Pairwise.of_cons hp))
      intro z hz
      rcases mem_insertSorted _ hz with h1 | h1
      · rw [h1]; exact le_of_not_le hle
      · exact List.rel_of_pairwise_cons hp h1

theorem sorted_pySorted : ∀ l, List.Pairwise (fun a b => a ≤ b) (pySorted l) := by
  intro l
  induction l with
  | nil => exact List.Pairwise.nil
  | cons y ys ih =>
    rw [pySorted, List.foldr_cons]
    exact sorted_insertSorted y _ ih

theorem mem_dictInsert {m : List (String × List String)} {k : String} {v : List String}
    {e : String × List String} (he : e ∈ dictInsert m k v) : e ∈ m ∨ e = (k, v) := by
  unfold dictInsert at he
  by_cases hk : m.any (fun p => p.1 = k) = true
  · rw [if_pos hk] at he
    obtain ⟨p, hp, hpe⟩ := List.mem_map.mp he
    by_cases hpk : p.1 = k
    · rw [if_pos hpk] at hpe
      exact Or.inr hpe.symm
    · rw [if_neg hpk] at hpe
      exact Or.inl (hpe ▸ hp)
  · rw [if_neg hk] at he
    rcases List.mem_append.mp he with h | h
    · exact Or.inl h
    · exact Or.inr (List.mem_singleton.mp h)

theorem read_companies_aux :
    ∀ (lines : List String) (init : List Company), (∀ c ∈ init, c.founders = []) →
      ∀ c ∈ lines.foldl (fun items ln =>
        if pyStrip ln = "" then items
        else if (parse_company_line (pyStrip ln)).1 = "" then items
        else items ++
          [⟨(parse_company_line (pyStrip ln)).1, (parse_company_line (pyStrip ln)).2, []⟩]) init,
      c.founders = [] := by
  intro lines
  induction lines with
  | nil => intro init hinit c hc; exact hinit c hc
  | cons ln ls ih =>
    intro init hinit c hc
    rw [List.foldl_cons] at hc
    refine ih _ ?_ c hc
    intro c2 hc2
    by_cases h1 : pyStrip ln = ""
    · rw [if_pos h1] at hc2; exact hinit c2 hc2
    · rw [if_neg h1] at hc2
      by_cases h2 : (parse_company_line (pyStrip ln)).1 = ""
      · rw [if_pos h2] at hc2; exact hinit c2 hc2
      · rw [if_neg h2] at hc2
        rcases List.mem_append.mp hc2 with h | h
        · exact hinit c2 h
        · rw [List.mem_singleton.mp h]

theorem read_companies_founders_nil (lines : List String) :
    ∀ c ∈ read_companies lines, c.founders = [] := by
  unfold read_companies
  exact read_companies_aux lines [] (fun c hc => absurd hc (List.not_mem_nil c))

theorem companyLoopFounders_validated (robots : String → Bool) (fetchO : String → Option Dom) :
    ∀ (urls : List String) (tried maxp : Nat) (fs : List String),
      (∀ y ∈ fs, is_plausible_person_name y = true) →
      ∀ x ∈ companyLoopFounders robots fetchO urls tried maxp fs,
        is_plausible_person_name x = true := by
  intro urls
  induction urls with
  | nil =>
    intro tried maxp fs hfs x hx
    rw [companyLoopFounders] at hx
    exact hfs x hx
  | cons url rest ih =>
    intro tried maxp fs hfs x hx
    rw [companyLoopFounders] at hx
    by_cases h1 : maxp ≤ tried
    · rw [if_pos h1] at hx; exact hfs x hx
    · rw [if_neg h1] at hx
      by_cases h2 : robots url = false
      · rw [if_pos h2] at hx; exact ih _ _ _ hfs x hx
      · rw [if_neg h2] at hx
        cases hf : fetchO url with
        | none =>
          rw [hf] at hx
          simp only [Option.elim] at hx
          exact ih _ _ _ hfs x hx
        | some dom =>
          rw [hf] at hx
          simp only [Option.elim] at hx
          refine ih _ _ _ ?_ x hx
          intro y hy
          rcases mem_foldl_setAdd _ _ y hy with h | h
          · exact hfs y h
          · exact extract_founders_from_html_validated dom y h

theorem process_company_founders_validated (robots : String → Bool)
    (fetchO : String → Option Dom) (comp : Company) (hc : comp.founders = [])
    (x : String) (hx : x ∈ process_company_founders robots fetchO comp MAX_PAGES) :
    is_plausible_person_name x = true := by
  unfold process_company_founders at hx
  cases hu : comp.url with
  | none =>
    rw [hu] at hx
    simp only [Option.elim] at hx
    rw [hc] at hx
    exact absurd hx (List.not_mem_nil x)
  | some u =>
    rw [hu] at hx
    simp only [Option.elim] at hx
    refine companyLoopFounders_validated robots fetchO _ 0 MAX_PAGES comp.founders ?_ x hx
    intro y hy
    rw [hc] at hy
    exact absurd hy (List.not_mem_nil y)

theorem mem_main_fold (robots : String → Bool) (fetchO : String → Option Dom) :
    ∀ (comps : List Company) (init : List (String × List String)) (e : String × List String),
      e ∈ comps.foldl (fun res comp =>
        dictInsert res comp.name
          (pySorted (process_company_founders robots fetchO comp MAX_PAGES))) init →
      e ∈ init ∨ ∃ comp ∈ comps,
        e = (comp.name, pySorted (process_company_founders robots fetchO comp MAX_PAGES)) := by
  intro comps
  induction comps with
  | nil => intro init e he; exact Or.inl he
  | cons c cs ih =>
    intro init e he
    rw [List.foldl_cons] at he
    rcases ih _ e he with h | ⟨comp, hm, heq⟩
    · rcases mem_dictInsert h with h2 | h2
      · exact Or.inl h2
      · exact Or.inr ⟨c, List.mem_cons_self c cs, h2⟩
    · exact Or.inr ⟨comp, List.mem_cons_of_mem c hm, heq⟩

theorem companyLoopEvents_no_write (robots : String → Bool) (fetchO : String → Option Dom) :
    ∀ (urls : List String) (tried maxp : Nat),
      (companyLoopEvents robots fetchO urls tried maxp).countP isWriteEvent = 0 := by
  intro urls
  induction urls with
  | nil => intro tried maxp; rfl
  | cons url rest ih =>
    intro tried maxp
    rw [companyLoopEvents]
    by_cases h1 : maxp ≤ tried
    · rw [if_pos h1]; rfl
    · rw [if_neg h1]
      by_cases h2 : robots url = false
      · rw [if_pos h2]
        rw [List.countP_cons]
        rw [ih (tried + 1) maxp]
        rfl
      · rw [if_neg h2]
        cases hf : fetchO url with
        | none =>
          simp only [Option.elim]
          rw [List.countP_cons, List.countP_cons]
          rw [ih (tried + 1) maxp]
          rfl
        | some dom =>
          simp only [Option.elim]
          rw [List.countP_cons, List.countP_cons, List.countP_cons]
          rw [ih (tried + 1) maxp]
          rfl

theorem process_company_trace_no_write (robots : String → Bool) (fetchO : String → Option Dom)
    (comp : Company) (maxp : Nat) :
    (process_company_trace robots fetchO comp maxp).countP isWriteEvent = 0 := by
  unfold process_company_trace
  cases hu : comp.url with
  | none => rfl
  | some u =>
    simp only [Option.elim]
    exact companyLoopEvents_no_write robots fetchO _ 0 maxp

theorem main_foldr_no_write (robots : String → Bool) (fetchO : String → Option Dom) :
    ∀ (comps : List Company),
      (comps.foldr (fun comp acc =>
        process_company_trace robots fetchO comp MAX_PAGES ++ acc) []).countP isWriteEvent
        = 0 := by
  intro comps
  induction comps with
  | nil => rfl
  | cons c cs ih =>
    rw [List.foldr_cons, List.countP_append, ih,
      process_company_trace_no_write robots fetchO c MAX_PAGES]

/-- Claim C8: in the final persisted mapping, every entry is the sorted
(lexicographically ascending) list of the validated founder names accumulated
for one input company, and the whole run's trace contains exactly one output
write, which is its last event and carries exactly that mapping. -/
theorem C8_mapping_sorted_single_write (robots : String → Bool)
    (fetchO : String → Option Dom) (lines : List String) :
    (∀ e ∈ main_results robots fetchO lines,
      List.Pairwise (fun a b => a ≤ b) e.2 ∧
      (∀ x ∈ e.2, is_plausible_person_name x = true) ∧
      ∃ comp ∈ read_companies lines,
        e = (comp.name, pySorted (process_company_founders robots fetchO comp MAX_PAGES))) ∧
    (main_trace robots fetchO lines).countP isWriteEvent = 1 ∧
    (main_trace robots fetchO lines).getLast? =
      some (Event.write (main_results robots fetchO lines)) := by
  refine ⟨?_, ?_, ?_⟩
  · intro e he
    unfold main_results at he
    rcases mem_main_fold robots fetchO _ [] e he with h | ⟨comp, hm, heq⟩
    · exact absurd h (List.not_mem_nil e)
    · have hfound : comp.founders = [] := read_companies_founders_nil lines comp hm
      refine ⟨?_, ?_, ⟨comp, hm, heq⟩⟩
      · rw [heq]; exact sorted_pySorted _
      · intro x hx
        rw [heq] at hx
        exact process_company_founders_validated robots fetchO comp hfound x (mem_pySorted _ hx)
  · unfold main_trace
    rw [List.countP_append, main_foldr_no_write robots fetchO (read_companies lines)]
    rfl
  · unfold main_trace
    exact List.getLast?_concat _
